import Mathlib

/-!
# Verification of the bounded step-count checker

A shallow embedding of the core of the `lab1-2022` bounded verifier:
the WLP transformer `box` (src/symbolic.py), the instrumentation pass
`add_instrumentation` / `instrument` and the driver `symbolic_check`
(src/runtime.py), together with the external collaborators the spec
declares out of scope (the tinyscript AST, the term/formula encoder and
the interpreter), modelled from the spec where their code is not part of
the repository.

Machine integers do not arise: tinyscript variables and z3 integer terms
are mathematical integers.
-/

namespace Lab1

/-- Modelled from the spec: the tinyscript/z3 arithmetic term grammar
(`tinyscript.py` is an external collaborator, not under src/). Terms are
integer expressions over named variables, per §3 "boolean/arithmetic
expressions over named variables". -/
inductive Term where
  | Var (name : String)
  | Const (n : Int)
  | Sum (a b : Term)
  | Difference (a b : Term)
  | Product (a b : Term)
deriving DecidableEq

/-- Modelled from the spec: the boolean formula grammar shared by
tinyscript conditions (`LtF`, `NotF`, ...) and the z3 formulas `box`
builds (`z3.BoolVal`, `z3.And`, `z3.Implies`, `z3.Not`); the encoder
maps the former injectively into the latter, so one type serves both. -/
inductive Formula where
  | BoolVal (b : Bool)
  | LtF (a b : Term)
  | EqF (a b : Term)
  | NotF (p : Formula)
  | AndF (p q : Formula)
  | OrF (p q : Formula)
  | ImpliesF (p q : Formula)
deriving DecidableEq

/-- A program state: an integer value for every variable name. -/
def State : Type := String → Int

/-- Functional update of a state at one variable. -/
def updState (s : State) (x : String) (v : Int) : State :=
  fun y => if y = x then v else s y

/-- Value of a term in a state. -/
def termEval (s : State) : Term → Int
  | .Var name => s name
  | .Const n => n
  | .Sum a b => termEval s a + termEval s b
  | .Difference a b => termEval s a - termEval s b
  | .Product a b => termEval s a * termEval s b

/-- Truth value of a formula in a state. -/
def fmlaEval (s : State) : Formula → Bool
  | .BoolVal b => b
  | .LtF a b => decide (termEval s a < termEval s b)
  | .EqF a b => decide (termEval s a = termEval s b)
  | .NotF p => !fmlaEval s p
  | .AndF p q => fmlaEval s p && fmlaEval s q
  | .OrF p q => fmlaEval s p || fmlaEval s q
  | .ImpliesF p q => !fmlaEval s p || fmlaEval s q

/-- Modelled from the spec: `tinyscript_util.term_enc` (the Term/Formula
Encoder of §6, external). With tinyscript terms and z3 terms conflated
into one grammar, the encoding is the identity. -/
def term_enc (t : Term) : Term := t

/-- Modelled from the spec: `tinyscript_util.fmla_enc` (§6, external),
likewise the identity on the shared formula grammar. -/
def fmla_enc (f : Formula) : Formula := f

/-- Substitution of a term for a variable inside a term: the term-level
part of `z3.substitute`, which replaces every occurrence of the variable
node `term_enc(Var name)`. -/
def substTerm (t : Term) (x : String) (e : Term) : Term :=
  match t with
  | .Var name => if name = x then e else .Var name
  | .Const n => .Const n
  | .Sum a b => .Sum (substTerm a x e) (substTerm b x e)
  | .Difference a b => .Difference (substTerm a x e) (substTerm b x e)
  | .Product a b => .Product (substTerm a x e) (substTerm b x e)

/-- Modelled from the spec: `z3.substitute(postcondition, (x, e))` (§6
"substitute(formula, variable, term) -> Formula", external): syntactic
replacement of every occurrence of the variable by the term. -/
def substitute (f : Formula) (x : String) (e : Term) : Formula :=
  match f with
  | .BoolVal b => .BoolVal b
  | .LtF a b => .LtF (substTerm a x e) (substTerm b x e)
  | .EqF a b => .EqF (substTerm a x e) (substTerm b x e)
  | .NotF p => .NotF (substitute p x e)
  | .AndF p q => .AndF (substitute p x e) (substitute q x e)
  | .OrF p q => .OrF (substitute p x e) (substitute q x e)
  | .ImpliesF p q => .ImpliesF (substitute p x e) (substitute q x e)

/-- Modelled from the spec: the six tinyscript program node kinds of §3
(`tinyscript.py` is external). Constructor names follow the source's
`tn.Skip`, `tn.Asgn`, `tn.Seq`, `tn.If`, `tn.While`, `tn.Output`,
`tn.Abort`. -/
inductive Prog where
  | Skip
  | Asgn (name : String) (e : Term)
  | Seq (alpha beta : Prog)
  | If (q : Formula) (alpha beta : Prog)
  | While (q : Formula) (alpha : Prog)
  | Output (e : Term)
  | Abort
deriving DecidableEq

/-- Modelled from the spec: `tinyscript_util.simplify` (§6, external).
The spec requires only that simplification is idempotent and never
changes satisfiability ("constant folding / trivial rewrites"); the
identity is the minimal such function, and it is how the `@simplify`
decorator on `box` is modelled here. -/
def simplify (f : Formula) : Formula := f

/-- `box` from src/symbolic.py: the WLP transformer. The `@simplify`
decorator wraps the returned formula in `simplify`. Note two details of
the source carried over exactly: the `max_depth < 1` test precedes the
dispatch on `alpha`, and every recursive call omits the
`depth_exceed_strict` argument, so it takes Python's default `True`.
The loop case's else branch is the source's `tn.Asgn('x', tn.Var('x'))`,
not `Skip`. -/
def box (alpha : Prog) (postcondition : Formula) (max_depth : Nat)
    (depth_exceed_strict : Bool) : Formula :=
  simplify <|
  match max_depth, alpha with
  | 0, _ =>
      -- the source's `if max_depth < 1`: on a natural depth this is `max_depth = 0`
      if depth_exceed_strict then .BoolVal false else .BoolVal true
  | _ + 1, .Skip => postcondition
  | _ + 1, .Asgn name e =>
      substitute postcondition name (term_enc e)
  | d + 1, .Seq alpha_p beta_p =>
      box alpha_p (box beta_p postcondition (d + 1) true) (d + 1) true
  | d + 1, .If q alpha_p beta_p =>
      .AndF (.ImpliesF (fmla_enc q) (box alpha_p postcondition (d + 1) true))
            (.ImpliesF (fmla_enc (.NotF q)) (box beta_p postcondition (d + 1) true))
  | d + 1, .While q alpha_p =>
      box (.If q (.Seq alpha_p (.While q alpha_p)) (.Asgn "x" (.Var "x")))
          postcondition d true
  | _ + 1, .Output _ => postcondition
  | _ + 1, .Abort => postcondition
termination_by (max_depth, sizeOf alpha)
decreasing_by
  all_goals first
    | (apply Prod.Lex.right; simp; try omega)
    | (apply Prod.Lex.left; omega)

/-- `STEPS_LEFT` from src/runtime.py: the reserved step-counter
variable name. -/
def STEPS_LEFT : String := "#steps_left"

/-- `ins_to_add` from src/runtime.py: the decrement statement
`#steps_left := #steps_left - 1` prepended to every leaf. -/
def ins_to_add : Prog :=
  .Asgn STEPS_LEFT (.Difference (.Var STEPS_LEFT) (.Const 1))

/-- `add_instrumentation` from src/runtime.py, restricted to the six
recognized node kinds (the typed AST `Prog`); see
`add_instrumentationX` for the source's fall-through behaviour on
foreign nodes. The `step_bound` argument of the source is threaded but
unused, as in the source. -/
def add_instrumentation : Prog → Prog
  | .Asgn name e => .Seq ins_to_add (.Asgn name e)
  | .Skip => .Seq ins_to_add .Skip
  | .Output e => .Seq ins_to_add (.Output e)
  | .Abort => .Seq ins_to_add .Abort
  | .Seq alpha_p beta_p =>
      .Seq (add_instrumentation alpha_p) (add_instrumentation beta_p)
  | .If p alpha_p beta_p =>
      .If p (add_instrumentation alpha_p) (add_instrumentation beta_p)
  | .While q alpha_p => .While q (add_instrumentation alpha_p)

/-- `instrument` from src/runtime.py: prepend the counter
initialization `#steps_left := step_bound` to the instrumented body. -/
def instrument (alpha : Prog) (step_bound : Int) : Prog :=
  .Seq (.Asgn STEPS_LEFT (.Const step_bound)) (add_instrumentation alpha)

/-- The Python AST as `add_instrumentation` actually receives it:
Python is untyped, so a tree may contain a node of a kind outside the
six recognized ones. `Other` stands for any such foreign node. -/
inductive ProgX where
  | Skip
  | Asgn (name : String) (e : Term)
  | Seq (alpha beta : ProgX)
  | If (q : Formula) (alpha beta : ProgX)
  | While (q : Formula) (alpha : ProgX)
  | Output (e : Term)
  | Abort
  | Other
deriving DecidableEq

/-- `ins_to_add` rebuilt in the untyped AST. -/
def ins_to_addX : ProgX :=
  .Asgn STEPS_LEFT (.Difference (.Var STEPS_LEFT) (.Const 1))

/-- `add_instrumentation` from src/runtime.py over the untyped AST: the
source's `match` covers the six kinds and then falls through to
`return alpha` (commented "should not ever get here"), so a foreign
node is returned unchanged rather than rejected. -/
def add_instrumentationX : ProgX → ProgX
  | .Asgn name e => .Seq ins_to_addX (.Asgn name e)
  | .Skip => .Seq ins_to_addX .Skip
  | .Output e => .Seq ins_to_addX (.Output e)
  | .Abort => .Seq ins_to_addX .Abort
  | .Seq alpha_p beta_p =>
      .Seq (add_instrumentationX alpha_p) (add_instrumentationX beta_p)
  | .If p alpha_p beta_p =>
      .If p (add_instrumentationX alpha_p) (add_instrumentationX beta_p)
  | .While q alpha_p => .While q (add_instrumentationX alpha_p)
  | .Other => .Other

/-- The rewrite `r` exactly as the spec's §4.1 words describe it, for
comparison with the source's `add_instrumentation`: every leaf becomes
`Seq(decrementCounter, leaf)`; `Seq`, `If`, `While` keep their
constructor over the rewritten substatements. -/
def spec_rewrite : Prog → Prog
  | .Skip => .Seq ins_to_add .Skip
  | .Asgn name e => .Seq ins_to_add (.Asgn name e)
  | .Output e => .Seq ins_to_add (.Output e)
  | .Abort => .Seq ins_to_add .Abort
  | .Seq a b => .Seq (spec_rewrite a) (spec_rewrite b)
  | .If q a b => .If q (spec_rewrite a) (spec_rewrite b)
  | .While q a => .While q (spec_rewrite a)

/-- `Result` from src/symbolic.py line 10:
`Enum('Result', ['Satisfies', 'Violates', 'Unknown'])`. -/
inductive Result where
  | Satisfies
  | Violates
  | Unknown
deriving DecidableEq

/-- Modelled from the spec: the status component of the external SMT
solver's `checkSat(formulas, timeoutSeconds) -> (status, model?)` (§6);
a timeout surfaces as `unknown`. -/
inductive Z3Res where
  | sat
  | unsat
  | unknown
deriving DecidableEq

/-- A solver call, abstracted as a function from the queried formula to
a status. Modelled from the spec: `tinyscript_util.check_sat` is
external; the timeout only influences which status comes back, so it is
folded into the function. -/
def Solver : Type := Formula → Z3Res

/-- A solver is sound when it reports `unsat` only on formulas that are
false in every state. -/
def SolverSound (solver : Solver) : Prop :=
  ∀ f : Formula, solver f = .unsat → ∀ s : State, fmlaEval s f = false

/-- `symbolic_check` from src/runtime.py lines 85-137, with the
external solver as a parameter: instrument, build the postcondition
`-1 < #steps_left`, take `box` with `depth_exceed_strict=True`, query
the negation, and return `Satisfies` exactly on `unsat` — every other
status (sat, unknown, timeout) reaches the final `return
Result.Violates`; the `Result.Unknown` branch in the source is
commented out. -/
def symbolic_check (solver : Solver) (alpha : Prog) (step_bound : Int)
    (max_depth : Nat) : Result :=
  let alpha_p := instrument alpha step_bound
  let postcondition : Formula := .LtF (.Const (-1)) (.Var STEPS_LEFT)
  let weakest_pre := box alpha_p (fmla_enc postcondition) max_depth true
  let res := solver (.NotF weakest_pre)
  if res = .unsat then .Satisfies else .Violates

/-- Height of the program AST: leaves count 1, structural nodes one
more than their children. -/
def heightP : Prog → Nat
  | .Skip => 1
  | .Asgn _ _ => 1
  | .Output _ => 1
  | .Abort => 1
  | .Seq a b => 1 + max (heightP a) (heightP b)
  | .If _ a b => 1 + max (heightP a) (heightP b)
  | .While _ a => 1 + heightP a

/-- `box` with an explicit recursion-depth budget: `fuel` is decremented
on every call frame, and `none` means the computation needed a call
stack deeper than `fuel`. Structurally recursive on `fuel`, so it makes
the recursion depth of `box` a measurable quantity. -/
def boxFuel (fuel : Nat) (alpha : Prog) (postcondition : Formula)
    (max_depth : Nat) (depth_exceed_strict : Bool) : Option Formula :=
  match fuel with
  | 0 => none
  | fuel + 1 =>
    match max_depth, alpha with
    | 0, _ =>
        some (simplify
          (if depth_exceed_strict then .BoolVal false else .BoolVal true))
    | _ + 1, .Skip => some (simplify postcondition)
    | _ + 1, .Asgn name e =>
        some (simplify (substitute postcondition name (term_enc e)))
    | d + 1, .Seq alpha_p beta_p =>
        (boxFuel fuel beta_p postcondition (d + 1) true).bind fun inner =>
          (boxFuel fuel alpha_p inner (d + 1) true).bind fun outer =>
            some (simplify outer)
    | d + 1, .If q alpha_p beta_p =>
        (boxFuel fuel alpha_p postcondition (d + 1) true).bind fun fa =>
          (boxFuel fuel beta_p postcondition (d + 1) true).bind fun fb =>
            some (simplify (.AndF (.ImpliesF (fmla_enc q) fa)
                                  (.ImpliesF (fmla_enc (.NotF q)) fb)))
    | d + 1, .While q alpha_p =>
        (boxFuel fuel (.If q (.Seq alpha_p (.While q alpha_p))
                             (.Asgn "x" (.Var "x")))
                 postcondition d true).bind fun r =>
          some (simplify r)
    | _ + 1, .Output _ => some (simplify postcondition)
    | _ + 1, .Abort => some (simplify postcondition)

/-- Does a term mention a variable? -/
def termMentions (x : String) : Term → Bool
  | .Var name => name = x
  | .Const _ => false
  | .Sum a b => termMentions x a || termMentions x b
  | .Difference a b => termMentions x a || termMentions x b
  | .Product a b => termMentions x a || termMentions x b

/-- Does a formula mention a variable? -/
def fmlaMentions (x : String) : Formula → Bool
  | .BoolVal _ => false
  | .LtF a b => termMentions x a || termMentions x b
  | .EqF a b => termMentions x a || termMentions x b
  | .NotF p => fmlaMentions x p
  | .AndF p q => fmlaMentions x p || fmlaMentions x q
  | .OrF p q => fmlaMentions x p || fmlaMentions x q
  | .ImpliesF p q => fmlaMentions x p || fmlaMentions x q

/-- Does a program read or write a variable? -/
def progMentions (x : String) : Prog → Bool
  | .Skip => false
  | .Asgn name e => name = x || termMentions x e
  | .Output e => termMentions x e
  | .Abort => false
  | .Seq a b => progMentions x a || progMentions x b
  | .If q a b => fmlaMentions x q || progMentions x a || progMentions x b
  | .While q a => fmlaMentions x q || progMentions x a

/-- Two states agree everywhere except possibly at `x`. -/
def agreeOff (x : String) (s t : State) : Prop :=
  ∀ v : String, v ≠ x → s v = t v

/-- Modelled from the spec: big-step semantics of tinyscript (the
direct interpreter `interpreter.exc` is an external collaborator, not
under src/). Following §3: each leaf statement (`Skip`, `Asgn`,
`Output`, `Abort`) costs exactly one step; `Seq`, `If`, `While` cost
nothing themselves; `Abort` "signals failure", which halts the run with
the aborted flag set; `Output`'s observable effect is out of scope, so
it leaves the state unchanged. `BigStep alpha s t ab k` reads: from
state `s`, `alpha` terminates in state `t` with aborted flag `ab`
after executing `k` leaf statements. -/
inductive BigStep : Prog → State → State → Bool → Nat → Prop where
  | skip (s : State) : BigStep .Skip s s false 1
  | asgn (s : State) (x : String) (e : Term) :
      BigStep (.Asgn x e) s (updState s x (termEval s e)) false 1
  | output (s : State) (e : Term) : BigStep (.Output e) s s false 1
  | abort (s : State) : BigStep .Abort s s true 1
  | seq_abort {a : Prog} {s t : State} {k : Nat} (b : Prog)
      (h : BigStep a s t true k) : BigStep (.Seq a b) s t true k
  | seq {a b : Prog} {s t u : State} {ab : Bool} {k₁ k₂ : Nat}
      (h₁ : BigStep a s t false k₁) (h₂ : BigStep b t u ab k₂) :
      BigStep (.Seq a b) s u ab (k₁ + k₂)
  | if_true {q : Formula} {a : Prog} {s t : State} {ab : Bool} {k : Nat}
      (b : Prog) (hq : fmlaEval s q = true) (h : BigStep a s t ab k) :
      BigStep (.If q a b) s t ab k
  | if_false {q : Formula} {b : Prog} {s t : State} {ab : Bool} {k : Nat}
      (a : Prog) (hq : fmlaEval s q = false) (h : BigStep b s t ab k) :
      BigStep (.If q a b) s t ab k
  | while_false {q : Formula} {s : State} (a : Prog)
      (hq : fmlaEval s q = false) : BigStep (.While q a) s s false 0
  | while_abort {q : Formula} {a : Prog} {s t : State} {k : Nat}
      (hq : fmlaEval s q = true) (h : BigStep a s t true k) :
      BigStep (.While q a) s t true k
  | while_true {q : Formula} {a : Prog} {s t u : State} {ab : Bool}
      {k₁ k₂ : Nat} (hq : fmlaEval s q = true)
      (h₁ : BigStep a s t false k₁) (h₂ : BigStep (.While q a) t u ab k₂) :
      BigStep (.While q a) s u ab (k₁ + k₂)

/-! ## Unfolding lemmas for `box` -/

theorem box_zero (alpha : Prog) (P : Formula) (s : Bool) :
    box alpha P 0 s = if s then .BoolVal false else .BoolVal true := by
  rw [box]
  rfl

theorem box_skip (P : Formula) (d : Nat) (s : Bool) (h : 1 ≤ d) :
    box .Skip P d s = P := by
  obtain ⟨d', rfl⟩ : ∃ d', d = d' + 1 := ⟨d - 1, by omega⟩
  rw [box]
  rfl

theorem box_asgn (x : String) (e : Term) (P : Formula) (d : Nat) (s : Bool)
    (h : 1 ≤ d) : box (.Asgn x e) P d s = substitute P x (term_enc e) := by
  obtain ⟨d', rfl⟩ : ∃ d', d = d' + 1 := ⟨d - 1, by omega⟩
  rw [box]
  rfl

theorem box_seq (a b : Prog) (P : Formula) (d : Nat) (s : Bool) (h : 1 ≤ d) :
    box (.Seq a b) P d s = box a (box b P d true) d true := by
  obtain ⟨d', rfl⟩ : ∃ d', d = d' + 1 := ⟨d - 1, by omega⟩
  rw [box]
  rfl

theorem box_if (q : Formula) (a b : Prog) (P : Formula) (d : Nat) (s : Bool)
    (h : 1 ≤ d) :
    box (.If q a b) P d s =
      .AndF (.ImpliesF (fmla_enc q) (box a P d true))
            (.ImpliesF (fmla_enc (.NotF q)) (box b P d true)) := by
  obtain ⟨d', rfl⟩ : ∃ d', d = d' + 1 := ⟨d - 1, by omega⟩
  rw [box]
  rfl

theorem box_while (q : Formula) (a : Prog) (P : Formula) (d : Nat) (s : Bool)
    (h : 1 ≤ d) :
    box (.While q a) P d s =
      box (.If q (.Seq a (.While q a)) (.Asgn "x" (.Var "x"))) P (d - 1)
        true := by
  obtain ⟨d', rfl⟩ : ∃ d', d = d' + 1 := ⟨d - 1, by omega⟩
  rw [box]
  rfl

theorem box_output (e : Term) (P : Formula) (d : Nat) (s : Bool) (h : 1 ≤ d) :
    box (.Output e) P d s = P := by
  obtain ⟨d', rfl⟩ : ∃ d', d = d' + 1 := ⟨d - 1, by omega⟩
  rw [box]
  rfl

theorem box_abort (P : Formula) (d : Nat) (s : Bool) (h : 1 ≤ d) :
    box .Abort P d s = P := by
  obtain ⟨d', rfl⟩ : ∃ d', d = d' + 1 := ⟨d - 1, by omega⟩
  rw [box]
  rfl

/-- When the depth budget is still positive, the `depth_exceed_strict`
flag is never consulted: the top-level test fails and every recursive
call passes the default `True`. -/
theorem box_strict_irrel (alpha : Prog) (P : Formula) (d : Nat) (s : Bool)
    (h : 1 ≤ d) : box alpha P d s = box alpha P d true := by
  obtain ⟨d', rfl⟩ : ∃ d', d = d' + 1 := ⟨d - 1, by omega⟩
  cases alpha <;> rw [box, box]

/-! ## Substitution by the identity -/

theorem substTerm_self (t : Term) (x : String) :
    substTerm t x (.Var x) = t := by
  induction t with
  | Var name => by_cases h : name = x <;> simp [substTerm, h]
  | Const n => rfl
  | Sum a b iha ihb => simp [substTerm, iha, ihb]
  | Difference a b iha ihb => simp [substTerm, iha, ihb]
  | Product a b iha ihb => simp [substTerm, iha, ihb]

theorem substitute_self (f : Formula) (x : String) :
    substitute f x (.Var x) = f := by
  induction f with
  | BoolVal b => rfl
  | LtF a b => simp [substitute, substTerm_self]
  | EqF a b => simp [substitute, substTerm_self]
  | NotF p ih => simp [substitute, ih]
  | AndF p q ihp ihq => simp [substitute, ihp, ihq]
  | OrF p q ihp ihq => simp [substitute, ihp, ihq]
  | ImpliesF p q ihp ihq => simp [substitute, ihp, ihq]

/-! ## Claim C2 -/

/-- C2, counterexample: the claim includes `maxDepth = 0`, but the
source tests `max_depth < 1` before dispatching on the node, so on
`Skip` with depth 0 and the strict flag, `box` returns the constant
false formula, not the postcondition. -/
theorem box_skip_depth_zero_cex :
    box .Skip (.BoolVal true) 0 true ≠ .BoolVal true := by
  rw [box_zero]
  simp

/-- C2, amended: for every postcondition `P` and `maxDepth ≥ 1`,
`box(Skip, P, maxDepth) = P`; at `maxDepth = 0` the depth-exceeded
constant is returned even on the loop-free node `Skip`, because the
depth test precedes the node dispatch. -/
theorem box_skip_id_of_pos_depth (P : Formula) (d : Nat) (s : Bool)
    (h : 1 ≤ d) : box .Skip P d s = P :=
  box_skip P d s h

/-- Witness for `box_skip_id_of_pos_depth` at `P = BoolVal true`,
`d = 3`, strict flag. -/
theorem box_skip_id_of_pos_depth_witness :
    1 ≤ 3 ∧ box .Skip (.BoolVal true) 3 true = .BoolVal true :=
  ⟨by decide, box_skip_id_of_pos_depth (.BoolVal true) 3 true (by decide)⟩

/-! ## Claim C3 -/

/-- C3: for `maxDepth ≥ 1`, `box` on `While(q, a)` is one unrolling of
the loop axiom at depth `maxDepth - 1` whose else branch may be taken
as `Skip`: the source's else branch is the state identity
`x := x`, and substituting `x` for `x` leaves the postcondition
unchanged, exactly as `Skip` does. -/
theorem box_while_unroll (q : Formula) (a : Prog) (P : Formula) (d : Nat)
    (s : Bool) (h : 1 ≤ d) :
    box (.While q a) P d s =
      box (.If q (.Seq a (.While q a)) .Skip) P (d - 1) true := by
  rw [box_while q a P d s h]
  rcases Nat.eq_zero_or_pos (d - 1) with h0 | h1
  · rw [h0, box_zero, box_zero]
  · rw [box_if _ _ _ _ _ _ h1, box_if _ _ _ _ _ _ h1,
      box_asgn _ _ _ _ _ h1, box_skip _ _ _ h1, term_enc, substitute_self]

/-- Witness for `box_while_unroll` with `q = true`, `a = Skip`,
`P = BoolVal false`, `d = 2`, strict flag. -/
theorem box_while_unroll_witness :
    1 ≤ 2 ∧
      box (.While (.BoolVal true) .Skip) (.BoolVal false) 2 true =
        box (.If (.BoolVal true) (.Seq .Skip (.While (.BoolVal true) .Skip))
              .Skip) (.BoolVal false) 1 true :=
  ⟨by decide,
    box_while_unroll (.BoolVal true) .Skip (.BoolVal false) 2 true
      (by decide)⟩

/-! ## Claim C6 -/

/-- C6: sequential composition law of the WLP transformer, for every
depth budget (including 0, where both sides collapse to the
depth-exceeded constant) and either strict flag. -/
theorem box_seq_compose (a b : Prog) (P : Formula) (d : Nat) (s : Bool) :
    box (.Seq a b) P d s = box a (box b P d s) d s := by
  rcases Nat.eq_zero_or_pos d with rfl | h1
  · rw [box_zero, box_zero]
  · rw [box_seq a b P d s h1, box_strict_irrel b P d s h1,
      box_strict_irrel a (box b P d true) d s h1]

/-! ## Claim C4 -/

/-- The source's rewrite agrees with the spec's §4.1 description of it,
clause by clause. -/
theorem add_instrumentation_eq_spec_rewrite (alpha : Prog) :
    add_instrumentation alpha = spec_rewrite alpha := by
  induction alpha with
  | Skip => rfl
  | Asgn name e => rfl
  | Seq a b iha ihb => simp [add_instrumentation, spec_rewrite, iha, ihb]
  | If q a b iha ihb => simp [add_instrumentation, spec_rewrite, iha, ihb]
  | While q a iha => simp [add_instrumentation, spec_rewrite, iha]
  | Output e => rfl
  | Abort => rfl

/-- C4: `instrument(program, n)` is exactly
`Seq(Assign(stepCounter, n), r(program))` where `r` is the spec's
rewrite: leaves become `Seq(decrement, leaf)` and `Seq`/`If`/`While`
keep their constructor over rewritten substatements, with no counter
logic of their own. -/
theorem instrument_is_spec_shape (alpha : Prog) (n : Int) :
    instrument alpha n =
      .Seq (.Asgn STEPS_LEFT (.Const n)) (spec_rewrite alpha) := by
  rw [instrument, add_instrumentation_eq_spec_rewrite]

/-! ## Claim C8 -/

/-- C8, counterexample: on a node outside the six recognized kinds the
source's `match` falls through to `return alpha` (the line after the
comment "should not ever get here"), so the foreign node is returned
unchanged — the pass does not fail. -/
theorem add_instrumentationX_no_error_cex :
    add_instrumentationX .Other = .Other := rfl

/-- C8, amended: the instrumentation pass silently passes a node of an
unrecognized kind through unchanged, both at the top of the tree and
nested under a recognized node; it raises no unrecognized-node
error. -/
theorem add_instrumentationX_pass_through (p : ProgX) :
    add_instrumentationX (.Seq .Other p) =
        .Seq .Other (add_instrumentationX p) ∧
      add_instrumentationX (.While (.BoolVal true) .Other) =
        .While (.BoolVal true) .Other :=
  ⟨rfl, rfl⟩

/-! ## Claim C10 -/

/-- C10: `symbolic_check` never returns `Result.Unknown`: the source
returns `Satisfies` exactly when the solver says unsat and falls
through to `return Result.Violates` for every other status (sat,
unknown, timeout); the `Unknown` branch is commented out. -/
theorem symbolic_check_never_unknown (solver : Solver) (alpha : Prog)
    (step_bound : Int) (max_depth : Nat) :
    symbolic_check solver alpha step_bound max_depth ≠ .Unknown ∧
      (symbolic_check solver alpha step_bound max_depth = .Satisfies ∨
        symbolic_check solver alpha step_bound max_depth = .Violates) := by
  simp only [symbolic_check]
  split <;> simp

/-! ## Claim C1 -/

/-- C1: the code at the failing input. When the solver reports
`unknown` (for instance after a timeout), `symbolic_check` returns
`Result.Violates`, not `Result.Unknown` as its own docstring and the
spec describe: the `Result.Unknown` branch of the source is commented
out and every non-unsat status reaches `return Result.Violates`. -/
theorem symbolic_check_unknown_gives_violates :
    symbolic_check (fun _ => .unknown) .Skip 0 3 = .Violates := rfl

/-! ## Claim C9 -/

/-- The weakest precondition computed for `skip` under step bound 0 is
the concrete formula `-1 < 0 - 1`. -/
theorem wp_skip_zero (d : Nat) (h : 1 ≤ d) :
    box (instrument .Skip 0)
        (fmla_enc (.LtF (.Const (-1)) (.Var STEPS_LEFT))) d true =
      .LtF (.Const (-1)) (.Difference (.Const 0) (.Const 1)) := by
  simp only [instrument, add_instrumentation, ins_to_add]
  rw [box_seq _ _ _ _ _ h, box_seq _ _ _ _ _ h, box_skip _ _ _ h,
    box_asgn _ _ _ _ _ h, box_asgn _ _ _ _ _ h]
  rfl

/-- C9: for the program `skip` with step bound 0 and any unrolling
depth ≥ 1, the weakest precondition of the instrumented program w.r.t.
`-1 < #steps_left` is unsatisfiable, its negation is satisfiable, and
therefore `symbolic_check` with any sound solver returns
`Result.Violates`. -/
theorem symbolic_check_skip_zero_violates (d : Nat) (solver : Solver)
    (h : 1 ≤ d) (hsound : SolverSound solver) :
    (∀ s : State,
        fmlaEval s (box (instrument .Skip 0)
          (fmla_enc (.LtF (.Const (-1)) (.Var STEPS_LEFT))) d true) =
          false) ∧
      (∃ s : State,
        fmlaEval s (.NotF (box (instrument .Skip 0)
          (fmla_enc (.LtF (.Const (-1)) (.Var STEPS_LEFT))) d true)) =
          true) ∧
      symbolic_check solver .Skip 0 d = .Violates := by
  have hwp := wp_skip_zero d h
  refine ⟨?_, ?_, ?_⟩
  · intro s
    rw [hwp]
    simp [fmlaEval, termEval]
  · refine ⟨fun _ => 0, ?_⟩
    rw [hwp]
    simp [fmlaEval, termEval]
  · simp only [symbolic_check, hwp]
    split
    · next hres =>
        exfalso
        have hfalse := hsound _ hres (fun _ => 0)
        simp [fmlaEval, termEval] at hfalse
    · rfl

/-- Witness for `symbolic_check_skip_zero_violates` at `d = 1` with the
(trivially sound) solver that always answers sat. -/
theorem symbolic_check_skip_zero_violates_witness :
    symbolic_check (fun _ => .sat) .Skip 0 1 = .Violates :=
  (symbolic_check_skip_zero_violates 1 (fun _ => .sat) (by decide)
    (by intro f hf s; simp at hf)).2.2

/-! ## Claim C7 -/

theorem heightP_pos (alpha : Prog) : 1 ≤ heightP alpha := by
  cases alpha <;> simp [heightP]

/-- One frame down, the fuel bound keeps holding for a strictly lower
subterm at the same depth budget. -/
theorem fuel_step (hc hp e n : Nat) (hlt : hc + 1 ≤ hp)
    (h : hp + e * (hp + 3) ≤ n + 1) : hc + e * (hc + 3) ≤ n := by
  have h6 := Nat.mul_le_mul_left e (show hc + 3 ≤ hp + 3 by omega)
  omega

theorem fuel_mono (h1 h2 e : Nat) (hle : h1 ≤ h2) :
    h1 + e * (h1 + 3) ≤ h2 + e * (h2 + 3) := by
  have := Nat.mul_le_mul_left e (show h1 + 3 ≤ h2 + 3 by omega)
  omega

/-! Unfolding equations of `boxFuel`, one per frame shape. -/

theorem boxFuel_zero_depth (f : Nat) (alpha : Prog) (P : Formula) (s : Bool) :
    boxFuel (f + 1) alpha P 0 s =
      some (if s then .BoolVal false else .BoolVal true) := by
  cases alpha <;> cases s <;> rfl

theorem boxFuel_skip (f d : Nat) (P : Formula) (s : Bool) :
    boxFuel (f + 1) .Skip P (d + 1) s = some P := rfl

theorem boxFuel_asgn (f d : Nat) (x : String) (e : Term) (P : Formula)
    (s : Bool) :
    boxFuel (f + 1) (.Asgn x e) P (d + 1) s =
      some (substitute P x (term_enc e)) := rfl

theorem boxFuel_output (f d : Nat) (e : Term) (P : Formula) (s : Bool) :
    boxFuel (f + 1) (.Output e) P (d + 1) s = some P := rfl

theorem boxFuel_abort (f d : Nat) (P : Formula) (s : Bool) :
    boxFuel (f + 1) .Abort P (d + 1) s = some P := rfl

theorem boxFuel_seq (f d : Nat) (a b : Prog) (P : Formula) (s : Bool) :
    boxFuel (f + 1) (.Seq a b) P (d + 1) s =
      (boxFuel f b P (d + 1) true).bind fun inner =>
        (boxFuel f a inner (d + 1) true).bind fun outer =>
          some (simplify outer) := rfl

theorem boxFuel_if (f d : Nat) (q : Formula) (a b : Prog) (P : Formula)
    (s : Bool) :
    boxFuel (f + 1) (.If q a b) P (d + 1) s =
      (boxFuel f a P (d + 1) true).bind fun fa =>
        (boxFuel f b P (d + 1) true).bind fun fb =>
          some (simplify (.AndF (.ImpliesF (fmla_enc q) fa)
                                (.ImpliesF (fmla_enc (.NotF q)) fb))) := rfl

theorem boxFuel_while (f d : Nat) (q : Formula) (a : Prog) (P : Formula)
    (s : Bool) :
    boxFuel (f + 1) (.While q a) P (d + 1) s =
      (boxFuel f (.If q (.Seq a (.While q a)) (.Asgn "x" (.Var "x"))) P d
          true).bind fun r =>
        some (simplify r) := rfl

/-- A call stack of `heightP alpha + d * (heightP alpha + 3)` frames
always suffices for `box`: with that much fuel, the fuel-indexed
variant completes and agrees with the total function. -/
theorem boxFuel_sufficient (d : Nat) :
    ∀ (alpha : Prog) (P : Formula) (s : Bool) (n : Nat),
      heightP alpha + d * (heightP alpha + 3) ≤ n →
      boxFuel n alpha P d s = some (box alpha P d s) := by
  induction d with
  | zero =>
      intro alpha P s n h
      obtain ⟨n', rfl⟩ : ∃ n', n = n' + 1 :=
        ⟨n - 1, by have := heightP_pos alpha; omega⟩
      rw [boxFuel_zero_depth, box_zero]
  | succ d IH =>
      intro alpha
      induction alpha with
      | Skip =>
          intro P s n h
          obtain ⟨n', rfl⟩ : ∃ n', n = n' + 1 :=
            ⟨n - 1, by have := heightP_pos .Skip; omega⟩
          rw [boxFuel_skip, box_skip P (d + 1) s (by omega)]
      | Asgn name e =>
          intro P s n h
          obtain ⟨n', rfl⟩ : ∃ n', n = n' + 1 :=
            ⟨n - 1, by have := heightP_pos (.Asgn name e); omega⟩
          rw [boxFuel_asgn, box_asgn name e P (d + 1) s (by omega)]
      | Output e =>
          intro P s n h
          obtain ⟨n', rfl⟩ : ∃ n', n = n' + 1 :=
            ⟨n - 1, by have := heightP_pos (.Output e); omega⟩
          rw [boxFuel_output, box_output e P (d + 1) s (by omega)]
      | Abort =>
          intro P s n h
          obtain ⟨n', rfl⟩ : ∃ n', n = n' + 1 :=
            ⟨n - 1, by have := heightP_pos .Abort; omega⟩
          rw [boxFuel_abort, box_abort P (d + 1) s (by omega)]
      | Seq a b iha ihb =>
          intro P s n h
          obtain ⟨n', rfl⟩ : ∃ n', n = n' + 1 :=
            ⟨n - 1, by have := heightP_pos (.Seq a b); omega⟩
          have hb := fuel_step (heightP b) (heightP (.Seq a b)) (d + 1) n'
            (by simp [heightP]; omega) h
          have ha := fuel_step (heightP a) (heightP (.Seq a b)) (d + 1) n'
            (by simp [heightP]; omega) h
          rw [boxFuel_seq, ihb P true n' hb, Option.some_bind,
            iha (box b P (d + 1) true) true n' ha, Option.some_bind,
            box_seq a b P (d + 1) s (by omega)]
          rfl
      | If q a b iha ihb =>
          intro P s n h
          obtain ⟨n', rfl⟩ : ∃ n', n = n' + 1 :=
            ⟨n - 1, by have := heightP_pos (.If q a b); omega⟩
          have ha := fuel_step (heightP a) (heightP (.If q a b)) (d + 1) n'
            (by simp [heightP]; omega) h
          have hb := fuel_step (heightP b) (heightP (.If q a b)) (d + 1) n'
            (by simp [heightP]; omega) h
          rw [boxFuel_if, iha P true n' ha, Option.some_bind,
            ihb P true n' hb, Option.some_bind,
            box_if q a b P (d + 1) s (by omega)]
          rfl
      | While q a iha =>
          intro P s n h
          have hha := heightP_pos a
          have hH : heightP (.While q a) = 1 + heightP a := by simp [heightP]
          rw [box_while q a P (d + 1) s (by omega), Nat.add_sub_cancel]
          rcases Nat.eq_zero_or_pos d with rfl | hd
          · -- depth budget exhausted on the unrolled term
            obtain ⟨m, rfl⟩ : ∃ m, n = m + 2 := ⟨n - 2, by omega⟩
            rw [boxFuel_while, boxFuel_zero_depth, box_zero]
            rfl
          · obtain ⟨e, rfl⟩ : ∃ e, d = e + 1 := ⟨d - 1, by omega⟩
            obtain ⟨m, rfl⟩ : ∃ m, n = m + 4 := by
              refine ⟨n - 4, ?_⟩
              have h6 := Nat.mul_le_mul_left (e + 1 + 1)
                (show 3 ≤ heightP (.While q a) + 3 by omega)
              omega
            have hW : heightP (.While q a) +
                (e + 1) * (heightP (.While q a) + 3) ≤ m + 1 := by
              have h7 : (e + 1 + 1) * (heightP (.While q a) + 3) =
                  (e + 1) * (heightP (.While q a) + 3) +
                    (heightP (.While q a) + 3) := by ring
              omega
            have hA : heightP a + (e + 1) * (heightP a + 3) ≤ m + 1 :=
              le_trans (fuel_mono _ _ _ (by omega)) hW
            have hIH_W := IH (.While q a) P true (m + 1) hW
            have hIH_a := IH a (box (.While q a) P (e + 1) true) true (m + 1) hA
            rw [boxFuel_while, boxFuel_if, boxFuel_seq, hIH_W,
              Option.some_bind, hIH_a, Option.some_bind, boxFuel_asgn]
            rw [box_if q _ _ P (e + 1) true (by omega),
              box_seq a _ P (e + 1) true (by omega),
              box_asgn "x" (.Var "x") P (e + 1) true (by omega), term_enc,
              substitute_self]
            rfl

/-- C7, counterexample: a recursion budget of `maxDepth` plus the AST
depth is not enough; on `While(true, Skip)` (AST depth 2) with
`maxDepth = 2`, `box`'s recursion needs a stack deeper than 4, so the
fuel-indexed variant runs out. -/
theorem boxFuel_maxDepth_plus_height_cex :
    boxFuel (2 + heightP (.While (.BoolVal true) .Skip))
      (.While (.BoolVal true) .Skip) (.BoolVal true) 2 true = none := by
  decide

/-- C7, amended: `box` terminates on every program built from the six
node kinds, for every postcondition, either strict flag, and every
`maxDepth ≥ 0`; its recursion depth is bounded by
`heightP(program) + maxDepth * (heightP(program) + 3)` — though not by
`maxDepth` plus the AST depth, since each loop unrolling recurses on a
larger term — and the result is a pure formula (the formula grammar has
no program nodes, so no unexpanded `While` can occur in it). -/
theorem box_total_bounded_recursion (alpha : Prog) (P : Formula) (d : Nat)
    (s : Bool) :
    boxFuel (heightP alpha + d * (heightP alpha + 3)) alpha P d s =
      some (box alpha P d s) :=
  boxFuel_sufficient d alpha P s _ le_rfl

/-! ## Claim C5 -/

theorem updState_same (s : State) (x : String) (v : Int) :
    updState s x v x = v := by simp [updState]

theorem updState_other (s : State) (x : String) (v : Int) (y : String)
    (h : y ≠ x) : updState s x v y = s y := by simp [updState, h]

theorem agreeOff_updState_right (x : String) (s s' : State) (v : Int)
    (h : agreeOff x s s') : agreeOff x s (updState s' x v) := by
  intro y hy
  rw [updState_other _ _ _ _ hy]
  exact h y hy

/-- A term that does not mention `x` evaluates the same in states that
agree away from `x`. -/
theorem termEval_congr (x : String) (t : Term) (s s' : State)
    (hm : termMentions x t = false) (hag : agreeOff x s s') :
    termEval s t = termEval s' t := by
  induction t with
  | Var name =>
      simp [termMentions] at hm
      exact hag name hm
  | Const n => rfl
  | Sum a b iha ihb =>
      simp [termMentions] at hm
      simp [termEval, iha hm.1, ihb hm.2]
  | Difference a b iha ihb =>
      simp [termMentions] at hm
      simp [termEval, iha hm.1, ihb hm.2]
  | Product a b iha ihb =>
      simp [termMentions] at hm
      simp [termEval, iha hm.1, ihb hm.2]

/-- A formula that does not mention `x` has the same truth value in
states that agree away from `x`. -/
theorem fmlaEval_congr (x : String) (f : Formula) (s s' : State)
    (hm : fmlaMentions x f = false) (hag : agreeOff x s s') :
    fmlaEval s f = fmlaEval s' f := by
  induction f with
  | BoolVal b => rfl
  | LtF a b =>
      simp [fmlaMentions] at hm
      simp [fmlaEval, termEval_congr x a s s' hm.1 hag,
        termEval_congr x b s s' hm.2 hag]
  | EqF a b =>
      simp [fmlaMentions] at hm
      simp [fmlaEval, termEval_congr x a s s' hm.1 hag,
        termEval_congr x b s s' hm.2 hag]
  | NotF p ih =>
      simp [fmlaMentions] at hm
      simp [fmlaEval, ih hm]
  | AndF p q ihp ihq =>
      simp [fmlaMentions] at hm
      simp [fmlaEval, ihp hm.1, ihq hm.2]
  | OrF p q ihp ihq =>
      simp [fmlaMentions] at hm
      simp [fmlaEval, ihp hm.1, ihq hm.2]
  | ImpliesF p q ihp ihq =>
      simp [fmlaMentions] at hm
      simp [fmlaEval, ihp hm.1, ihq hm.2]

/-- Forward simulation for the rewriting pass alone: a run of `alpha`
that never touches the counter induces a run of its instrumented form
from any state agreeing away from the counter, with the same final
values off the counter, twice the leaf-step count (each decrement is
itself a leaf), and the counter lowered by exactly the number of leaf
statements `alpha` executed. -/
theorem add_instr_sim {alpha : Prog} {s t : State} {ab : Bool} {k : Nat}
    (h : BigStep alpha s t ab k) :
    progMentions STEPS_LEFT alpha = false →
    ∀ s' : State, agreeOff STEPS_LEFT s s' →
    ∃ t', BigStep (add_instrumentation alpha) s' t' ab (2 * k) ∧
      agreeOff STEPS_LEFT t t' ∧
      t' STEPS_LEFT = s' STEPS_LEFT - (k : Int) := by
  induction h with
  | skip s =>
      intro hfree s' hag
      refine ⟨updState s' STEPS_LEFT (s' STEPS_LEFT - 1), ?_,
        agreeOff_updState_right _ _ _ _ hag, by simp [updState_same]⟩
      rw [show (2 * 1 : Nat) = 1 + 1 from rfl]
      exact BigStep.seq (BigStep.asgn s' STEPS_LEFT _) (BigStep.skip _)
  | asgn s x e =>
      intro hfree s' hag
      simp [progMentions] at hfree
      obtain ⟨hx, he⟩ := hfree
      have hag₁ : agreeOff STEPS_LEFT s (updState s' STEPS_LEFT
          (s' STEPS_LEFT - 1)) := agreeOff_updState_right _ _ _ _ hag
      have hev : termEval (updState s' STEPS_LEFT (s' STEPS_LEFT - 1)) e =
          termEval s e := (termEval_congr _ e s _ he hag₁).symm
      refine ⟨updState (updState s' STEPS_LEFT (s' STEPS_LEFT - 1)) x
          (termEval (updState s' STEPS_LEFT (s' STEPS_LEFT - 1)) e),
        ?_, ?_, ?_⟩
      · rw [show (2 * 1 : Nat) = 1 + 1 from rfl]
        exact BigStep.seq (BigStep.asgn s' STEPS_LEFT _) (BigStep.asgn _ x e)
      · intro v hv
        by_cases hvx : v = x
        · subst hvx
          rw [updState_same, updState_same, hev]
        · rw [updState_other _ _ _ _ hvx, updState_other _ _ _ _ hvx,
            updState_other _ _ _ _ hv]
          exact hag v hv
      · rw [updState_other _ _ _ _ (Ne.symm hx), updState_same]
        simp
  | output s e =>
      intro hfree s' hag
      refine ⟨updState s' STEPS_LEFT (s' STEPS_LEFT - 1), ?_,
        agreeOff_updState_right _ _ _ _ hag, by simp [updState_same]⟩
      rw [show (2 * 1 : Nat) = 1 + 1 from rfl]
      exact BigStep.seq (BigStep.asgn s' STEPS_LEFT _) (BigStep.output _ e)
  | abort s =>
      intro hfree s' hag
      refine ⟨updState s' STEPS_LEFT (s' STEPS_LEFT - 1), ?_,
        agreeOff_updState_right _ _ _ _ hag, by simp [updState_same]⟩
      rw [show (2 * 1 : Nat) = 1 + 1 from rfl]
      exact BigStep.seq (BigStep.asgn s' STEPS_LEFT _) (BigStep.abort _)
  | @seq_abort a s t k b h ih =>
      intro hfree s' hag
      simp [progMentions] at hfree
      obtain ⟨t', hb, hag', hc⟩ := ih hfree.1 s' hag
      exact ⟨t', BigStep.seq_abort _ hb, hag', hc⟩
  | @seq a b s t u ab k₁ k₂ h₁ h₂ ih₁ ih₂ =>
      intro hfree s' hag
      simp [progMentions] at hfree
      obtain ⟨t₁', hb₁, hag₁, hc₁⟩ := ih₁ hfree.1 s' hag
      obtain ⟨t₂', hb₂, hag₂, hc₂⟩ := ih₂ hfree.2 t₁' hag₁
      rw [show 2 * (k₁ + k₂) = 2 * k₁ + 2 * k₂ by ring]
      refine ⟨t₂', BigStep.seq hb₁ hb₂, hag₂, ?_⟩
      rw [hc₂, hc₁]
      push_cast
      ring
  | @if_true q a s t ab k b hq h ih =>
      intro hfree s' hag
      simp [progMentions] at hfree
      obtain ⟨t', hb, hag', hc⟩ := ih hfree.1.2 s' hag
      have hq' : fmlaEval s' q = true := by
        rw [← fmlaEval_congr STEPS_LEFT q s s' hfree.1.1 hag]
        exact hq
      exact ⟨t', BigStep.if_true _ hq' hb, hag', hc⟩
  | @if_false q b s t ab k a hq h ih =>
      intro hfree s' hag
      simp [progMentions] at hfree
      obtain ⟨t', hb, hag', hc⟩ := ih hfree.2 s' hag
      have hq' : fmlaEval s' q = false := by
        rw [← fmlaEval_congr STEPS_LEFT q s s' hfree.1.1 hag]
        exact hq
      exact ⟨t', BigStep.if_false _ hq' hb, hag', hc⟩
  | @while_false q s a hq =>
      intro hfree s' hag
      simp [progMentions] at hfree
      have hq' : fmlaEval s' q = false := by
        rw [← fmlaEval_congr STEPS_LEFT q s s' hfree.1 hag]
        exact hq
      exact ⟨s', BigStep.while_false _ hq', hag, by simp⟩
  | @while_abort q a s t k hq h ih =>
      intro hfree s' hag
      simp [progMentions] at hfree
      obtain ⟨t', hb, hag', hc⟩ := ih hfree.2 s' hag
      have hq' : fmlaEval s' q = true := by
        rw [← fmlaEval_congr STEPS_LEFT q s s' hfree.1 hag]
        exact hq
      exact ⟨t', BigStep.while_abort hq' hb, hag', hc⟩
  | @while_true q a s t u ab k₁ k₂ hq h₁ h₂ ih₁ ih₂ =>
      intro hfree s' hag
      simp [progMentions] at hfree
      obtain ⟨t₁', hb₁, hag₁, hc₁⟩ := ih₁ hfree.2 s' hag
      obtain ⟨t₂', hb₂, hag₂, hc₂⟩ :=
        ih₂ (by simp [progMentions, hfree.1, hfree.2]) t₁' hag₁
      have hq' : fmlaEval s' q = true := by
        rw [← fmlaEval_congr STEPS_LEFT q s s' hfree.1 hag]
        exact hq
      rw [show 2 * (k₁ + k₂) = 2 * k₁ + 2 * k₂ by ring]
      refine ⟨t₂', BigStep.while_true hq' hb₁ hb₂, hag₂, ?_⟩
      rw [hc₂, hc₁]
      push_cast
      ring

/-- C5: observational equivalence of `instrument alpha n` with `alpha`
on user-visible variables. If `alpha` never mentions the reserved
counter `#steps_left` and runs from `s` to `t` (aborted flag `ab`)
executing `k` leaf statements, then from any state agreeing with `s`
away from the counter, the instrumented program runs to a state with
the same values on every variable other than the counter, the same
aborted flag, and the counter equal to `n - k`: it decreased by exactly
1 per executed leaf statement of the original program. -/
theorem instrument_observational_equiv (alpha : Prog) (n : Int)
    (s t s' : State) (ab : Bool) (k : Nat)
    (h : BigStep alpha s t ab k)
    (hfree : progMentions STEPS_LEFT alpha = false)
    (hag : agreeOff STEPS_LEFT s s') :
    ∃ t', BigStep (instrument alpha n) s' t' ab (1 + 2 * k) ∧
      agreeOff STEPS_LEFT t t' ∧ t' STEPS_LEFT = n - (k : Int) := by
  obtain ⟨t', hb, hag', hc⟩ := add_instr_sim h hfree
    (updState s' STEPS_LEFT n) (agreeOff_updState_right _ _ _ _ hag)
  refine ⟨t', BigStep.seq (BigStep.asgn s' STEPS_LEFT (.Const n)) hb, hag', ?_⟩
  rw [hc, updState_same]

/-- Witness for `instrument_observational_equiv`: the program
`y := 5` under step bound 7, from the all-zero state. -/
theorem instrument_observational_equiv_witness :
    ∃ t', BigStep (instrument (.Asgn "y" (.Const 5)) 7)
        (fun _ => (0 : Int)) t' false (1 + 2 * 1) ∧
      agreeOff STEPS_LEFT (updState (fun _ => (0 : Int)) "y" 5) t' ∧
      t' STEPS_LEFT = 7 - ((1 : Nat) : Int) :=
  instrument_observational_equiv (.Asgn "y" (.Const 5)) 7
    (fun _ => (0 : Int)) _ (fun _ => (0 : Int)) false 1
    (BigStep.asgn (fun _ => (0 : Int)) "y" (.Const 5)) rfl
    (fun _ _ => rfl)

end Lab1
